import Mathlib

/-
  Verification development for the layout engine of the way-cooler window
  manager.

  The development shallowly embeds the two layout modules of the repository:

  1. src/src/layout/containers.rs : the invariant-rich container tree.
     Nodes live behind reference-counted cells; we embed the heap as an
     arena, a list of optional containers indexed by allocation order.
     A list entry that is missing models a node whose strong references
     were dropped, so weak upgrades of it fail.  Every operation of the
     source becomes a function on this arena; a result of none models a
     Rust level abort (failed unwrap, illegal-edge abort, out of bounds
     indexing), while Except.error models a Result::Err return value.

  2. src/src/layout/layout.rs : the workspace manager.  It is written
     against container/tree modules that are not part of the repository
     sources; those missing parts (a value tree with new_child,
     find_view_by_handle, remove_child, get_children, get_val) are
     modelled from the spec where noted.
-/

namespace WayCooler

/-- ContainerType from containers.rs. -/
inductive CType where
  | root
  | output
  | workspace
  | container
  | view
deriving DecidableEq, Repr

/-- Handle from containers.rs; WlcView and WlcOutput handles are opaque
external capabilities, modelled by a numeric identifier. -/
inductive Handle where
  | output (id : Nat)
  | view (id : Nat)
deriving DecidableEq, Repr

/-- Layout from containers.rs. -/
inductive LayoutMode where
  | none
  | horizontal
  | vertical
  | stacked
  | tabbed
  | floating
deriving DecidableEq, Repr

/-- Container from containers.rs.  The parent field stores the target of
the weak back-reference as an arena index; children store strong
references as arena indices. -/
structure Container where
  handle : Option Handle
  parent : Option Nat
  children : List Nat
  container_type : CType
  layout : LayoutMode
  visible : Bool
  is_focused : Bool
  is_floating : Bool
deriving DecidableEq, Repr

/-- The heap of reference-counted containers: index = allocation order.
An entry of none is a node whose storage was dropped, so upgrading a
weak reference to it fails. -/
structure St where
  nodes : List (Option Container)
deriving DecidableEq, Repr

/-- Dereference an arena index, as borrowing the Rc does; none when the
index was never allocated or the node was dropped. -/
def getC (st : St) (i : Nat) : Option Container :=
  st.nodes[i]?.bind id

/-- Replace the container stored at an index. -/
def setC (st : St) (i : Nat) (c : Container) : St :=
  ⟨st.nodes.set i (some c)⟩

/-- Allocate a fresh node at the end of the arena, returning its index. -/
def pushNode (st : St) (c : Container) : St × Nat :=
  (⟨st.nodes ++ [some c]⟩, st.nodes.length)

/-- The container built by Container::new_root. -/
def rootC : Container :=
  ⟨none, none, [], CType.root, LayoutMode.none, false, false, false⟩

/-- Container::new_root, as the initial single-node tree state. -/
def newRoot : St := ⟨[some rootC]⟩

/-- Container::get_parent: none for the root, otherwise upgrade the weak
back-reference, which fails when the parent was dropped. -/
def getParent (st : St) (i : Nat) : Option Nat :=
  match getC st i with
  | none => none
  | some c =>
    if c.container_type = CType.root then none
    else
      match c.parent with
      | some p => if (getC st p).isSome then some p else none
      | none => none

/-- Container::add_child.  The outer Option is none only when a
dereferenced node is dead (impossible through live Rust references);
the Except mirrors the Result return value of the source. -/
def addChild (st : St) (self child : Nat) : Option (Except String St) :=
  match getC st self, getC st child with
  | some c, some cc =>
    if c.container_type = CType.workspace ∧ cc.container_type = CType.workspace then
      some (Except.error "Only containers can be children of a workspace")
    else if c.container_type = CType.view then
      some (Except.error "Cannot add child to a view")
    else
      some (Except.ok (setC st self { c with children := c.children ++ [child] }))
  | _, _ => none

/-- Container::add_sibling.  The source unwraps get_parent, so a dead or
absent parent aborts (none); the delegated add_child result is dropped
and Ok(()) is returned in every surviving case. -/
def addSibling (st : St) (self node : Nat) : Option (Except String St) :=
  match getC st self with
  | none => none
  | some c =>
    if c.container_type = CType.root then
      some (Except.error "Root has no sibling, cannot add sibling to root")
    else
      match getParent st self with
      | none => none
      | some p =>
        match addChild st p node with
        | none => none
        | some (Except.ok st') => some (Except.ok st')
        | some (Except.error _) => some (Except.ok st)

/-- Container::new_output: aborts unless the parent is the root, then
links the fresh output below it.  The resolution captured from the
surface does not affect tree structure and is not modelled. -/
def newOutput (st : St) (root : Nat) (h : Nat) : Option (St × Nat) :=
  match getC st root with
  | none => none
  | some c =>
    if c.container_type ≠ CType.root then none
    else
      let n := pushNode st
        ⟨some (Handle.output h), some root, [], CType.output, LayoutMode.none,
          false, false, false⟩
      match addChild n.1 root n.2 with
      | none => none
      | some (Except.ok st2) => some (st2, n.2)
      | some (Except.error _) => some (n.1, n.2)

/-- Container::new_workspace: aborts unless the parent is an output;
inherits the parent handle by unwrapping it (abort when absent). -/
def newWorkspace (st : St) (p : Nat) : Option (St × Nat) :=
  match getC st p with
  | none => none
  | some c =>
    if c.container_type ≠ CType.output then none
    else
      match c.handle with
      | none => none
      | some hdl =>
        let n := pushNode st
          ⟨some hdl, some p, [], CType.workspace, LayoutMode.none,
            false, false, false⟩
        match addChild n.1 p n.2 with
        | none => none
        | some (Except.ok st2) => some (st2, n.2)
        | some (Except.error _) => some (n.1, n.2)

/-- Container::new_container: aborts unless the parent is a container or
a workspace; inherits the parent handle by unwrapping it. -/
def newContainer (st : St) (p : Nat) : Option (St × Nat) :=
  match getC st p with
  | none => none
  | some c =>
    if c.container_type = CType.container ∨ c.container_type = CType.workspace then
      match c.handle with
      | none => none
      | some hdl =>
        let n := pushNode st
          ⟨some hdl, some p, [], CType.container, LayoutMode.none,
            false, false, false⟩
        match addChild n.1 p n.2 with
        | none => none
        | some (Except.ok st2) => some (st2, n.2)
        | some (Except.error _) => some (n.1, n.2)
    else none

/-- The container built by Container::new_view below a given parent. -/
def viewC (p h : Nat) : Container :=
  ⟨some (Handle.view h), some p, [], CType.view, LayoutMode.none,
    false, false, false⟩

/-- Container::new_view: aborts when the parent is the root; the fresh
view always stores the parent it was called on in its back-reference,
then is attached as a direct child of a workspace parent and as a
sibling (child of the resolved grandparent) otherwise. -/
def newView (st : St) (p : Nat) (h : Nat) : Option (St × Nat) :=
  match getC st p with
  | none => none
  | some c =>
    if c.container_type = CType.root then none
    else
      let n := pushNode st (viewC p h)
      if c.container_type = CType.workspace then
        match addChild n.1 p n.2 with
        | none => none
        | some (Except.ok st2) => some (st2, n.2)
        | some (Except.error _) => some (n.1, n.2)
      else
        match addSibling n.1 p n.2 with
        | none => none
        | some (Except.ok st2) => some (st2, n.2)
        | some (Except.error _) => some (n.1, n.2)

/-- The scan of Container::remove_child over the children list: Rust
compares children against the argument with PartialEq, which equates
containers by type alone; returns the index of the first child whose
type matches, none (outer) when a scanned child is dead. -/
def findTypeIdx (st : St) : List Nat → CType → Nat → Option (Option Nat)
  | [], _, _ => some none
  | j :: rest, t, k =>
    match getC st j with
    | none => none
    | some cj =>
      if cj.container_type = t then some (some k)
      else findTypeIdx st rest t (k + 1)

/-- Container::remove_child.  The argument in the source is a borrowed
container used only through type-based equality, so it is passed
as a ContainerType here. -/
def removeChild (st : St) (self : Nat) (t : CType) : Option (Except String (St × Nat)) :=
  match getC st self with
  | none => none
  | some c =>
    match findTypeIdx st c.children t 0 with
    | none => none
    | some none => some (Except.error "Could not find child in container")
    | some (some k) =>
      if t = CType.workspace then
        some (Except.error "Can not remove workspace")
      else
        match c.children[k]? with
        | none => none
        | some j =>
          some (Except.ok (setC st self { c with children := c.children.eraseIdx k }, j))

/-- Container::remove_child_at. -/
def removeChildAt (st : St) (self idx : Nat) : Option (Except String (St × Nat)) :=
  match getC st self with
  | none => none
  | some c =>
    match c.children[idx]? with
    | none => none
    | some j =>
      match getC st j with
      | none => none
      | some cj =>
        if cj.container_type = CType.workspace then
          some (Except.error "Cannot remove workspace")
        else
          some (Except.ok (setC st self { c with children := c.children.eraseIdx idx }, j))

/-- Container::remove_container: errors on root and workspace, treats an
unresolved parent as nothing to do, and otherwise drops the result of
the delegated remove_child, returning Ok in every surviving case.
The release of the detached subtree storage is left implicit, as in
the source: the subtree simply stops being reachable from the root. -/
def removeContainer (st : St) (self : Nat) : Option (Except String St) :=
  match getC st self with
  | none => none
  | some c =>
    if c.container_type = CType.root then
      some (Except.error "Cannot remove root container")
    else if c.container_type = CType.workspace then
      some (Except.error "Cannot remove workspace container")
    else
      match getParent st self with
      | none => some (Except.ok st)
      | some p =>
        match removeChild st p c.container_type with
        | none => none
        | some (Except.ok r) => some (Except.ok r.1)
        | some (Except.error _) => some (Except.ok st)

/-- Container::is_parent_of with explicit fuel.  The source loop never
rebinds child, so each iteration re-reads the same node: it tests the
loop guard on child, unwraps the parent of child, and compares child
with that parent under type-based equality.  Fuel exhaustion (none)
models the loop running forever. -/
def isParentOfFuel (st : St) (selfId childId : Nat) : Nat → Option Bool
  | 0 => none
  | fuel + 1 =>
    match getC st selfId with
    | none => none
    | some cs =>
      if cs.container_type = CType.root then some true
      else
        match getC st childId with
        | none => none
        | some cc =>
          if cc.container_type = CType.root then some false
          else
            match getParent st childId with
            | none => none
            | some p =>
              match getC st p with
              | none => none
              | some cp =>
                if cc.container_type = cp.container_type then some true
                else isParentOfFuel st selfId childId fuel

/-- The operations a caller can issue against an existing tree: the four
attaching constructors and the three removal operations of
containers.rs.  Raw add_child and add_sibling are only reached through
these, matching the spec phrase about sequences restricted to the
valid constructors. -/
inductive Op where
  | newOutput (parent h : Nat)
  | newWorkspace (parent : Nat)
  | newContainer (parent : Nat)
  | newView (parent h : Nat)
  | removeContainer (n : Nat)
  | removeChildAt (n idx : Nat)
  | removeChild (n : Nat) (t : CType)
deriving DecidableEq, Repr

/-- Run one operation; none when the operation aborts or returns an
error, so a some result is exactly a run of operations that neither
abort nor error. -/
def runOp (st : St) : Op → Option St
  | Op.newOutput p h => (newOutput st p h).map (·.1)
  | Op.newWorkspace p => (newWorkspace st p).map (·.1)
  | Op.newContainer p => (newContainer st p).map (·.1)
  | Op.newView p h => (newView st p h).map (·.1)
  | Op.removeContainer n =>
    match removeContainer st n with
    | some (Except.ok st') => some st'
    | _ => none
  | Op.removeChildAt n i =>
    match removeChildAt st n i with
    | some (Except.ok r) => some r.1
    | _ => none
  | Op.removeChild n t =>
    match removeChild st n t with
    | some (Except.ok r) => some r.1
    | _ => none

/-- Run a sequence of operations, failing when any single one fails. -/
def runOps (st : St) : List Op → Option St
  | [] => some st
  | op :: rest => (runOp st op).bind (fun st' => runOps st' rest)

/-- Run one operation, additionally requiring every new_view call to be
made on a workspace parent (the regime of the amended claim C1). -/
def runOpR (st : St) : Op → Option St
  | Op.newView p h =>
    match getC st p with
    | some c =>
      if c.container_type = CType.workspace then (newView st p h).map (·.1)
      else none
    | none => none
  | op => runOp st op

/-- Run a sequence of operations under the workspace-parent restriction
on new_view. -/
def runOpsR (st : St) : List Op → Option St
  | [] => some st
  | op :: rest => (runOpR st op).bind (fun st' => runOpsR st' rest)

section Invariant

/-- Which child container type may sit below which parent container
type, per the spec data-model invariants. -/
def legalPair : CType → CType → Bool
  | CType.root, CType.output => true
  | CType.output, CType.workspace => true
  | CType.workspace, CType.container => true
  | CType.workspace, CType.view => true
  | CType.container, CType.container => true
  | CType.container, CType.view => true
  | _, _ => false

/-- Index 0 holds the live root container with no parent. -/
def rootOK (st : St) : Bool :=
  match getC st 0 with
  | some c => c.container_type == CType.root && c.parent == Option.none
  | none => false

/-- Only index 0 may hold a container of root type. -/
def rootUnique (st : St) : Bool :=
  (List.range st.nodes.length).all fun i =>
    match getC st i with
    | some c => !(c.container_type == CType.root) || i == 0
    | none => true

/-- Total number of occurrences of an index in children lists of live
nodes. -/
def occCount (st : St) (j : Nat) : Nat :=
  ∑ i ∈ Finset.range st.nodes.length,
    match getC st i with
    | some c => c.children.count j
    | none => 0

/-- Each index is owned at most once tree-wide. -/
def uniqueOcc (st : St) : Bool :=
  (List.range st.nodes.length).all fun j => occCount st j ≤ 1

/-- Per-node edge invariant: children are strictly younger live nodes,
legally typed below this node, and their back-reference names this
node. -/
def nodeOK (st : St) (i : Nat) (c : Container) : Bool :=
  c.children.all fun j =>
    decide (i < j) && decide (j < st.nodes.length) &&
      (match getC st j with
       | some cj =>
         legalPair c.container_type cj.container_type &&
           cj.parent == some i
       | none => false)

/-- The strong structural invariant of a tree state. -/
def invB (st : St) : Bool :=
  rootOK st && rootUnique st && uniqueOcc st &&
    ((List.range st.nodes.length).all fun i =>
      match getC st i with
      | some c => nodeOK st i c
      | none => true)

/-- One parent-to-child ownership edge of the arena. -/
def childEdge (st : St) (a b : Nat) : Prop :=
  ∃ c, getC st a = some c ∧ b ∈ c.children

/-- Reachability from one node to another along ownership edges. -/
def Reach (st : St) : Nat → Nat → Prop :=
  Relation.ReflTransGen (childEdge st)

/-- The claim-level invariant: along every node reachable from the
root, parent/child type pairings are legal, and every reachable
non-root node carries a back-reference that resolves to a live node
holding it as a child exactly once. -/
def TreeInv (st : St) : Prop :=
  ∀ n, Reach st 0 n →
    (∀ c, getC st n = some c → ∀ j ∈ c.children,
      ∃ cj, getC st j = some cj ∧
        legalPair c.container_type cj.container_type = true) ∧
    (n ≠ 0 → ∀ c, getC st n = some c →
      ∃ p, c.parent = some p ∧
        ∃ cp, getC st p = some cp ∧ cp.children.count n = 1)

/-- The structural invariant in Prop form, quantifier-friendly for the
preservation proofs: index 0 is the unique live root; every index is
owned at most once tree-wide; every ownership edge goes to a strictly
younger live node, is legally typed, and is mirrored by the child
back-reference. -/
structure Inv (st : St) : Prop where
  root0 : ∃ c, getC st 0 = some c ∧ c.container_type = CType.root ∧ c.parent = none
  rootU : ∀ i c, getC st i = some c → c.container_type = CType.root → i = 0
  uniq : ∀ j, occCount st j ≤ 1
  edges : ∀ i c, getC st i = some c → ∀ j ∈ c.children,
    i < j ∧ ∃ cj, getC st j = some cj ∧
      legalPair c.container_type cj.container_type = true ∧ cj.parent = some i

/-- The combined effect of allocating a fresh node and linking it below
an existing parent, the shape every successful typed constructor
produces. -/
def attachSt (st : St) (p : Nat) (cp c : Container) : St :=
  ⟨st.nodes.set p (some { cp with children := cp.children ++ [st.nodes.length] }) ++
    [some c]⟩

/-- The combined effect of removing the child at one position of one
node, the shape every successful removal operation produces. -/
def eraseSt (st : St) (s : Nat) (c : Container) (k : Nat) : St :=
  ⟨st.nodes.set s (some { c with children := c.children.eraseIdx k })⟩

end Invariant

/-- The state reached under the amended-C1 regime by root, output,
workspace, then a view on the workspace. -/
def stVW : St :=
  ⟨[some ⟨none, none, [1], CType.root, LayoutMode.none, false, false, false⟩,
    some ⟨some (Handle.output 10), some 0, [2], CType.output, LayoutMode.none,
      false, false, false⟩,
    some ⟨some (Handle.output 10), some 1, [3], CType.workspace, LayoutMode.none,
      false, false, false⟩,
    some ⟨some (Handle.view 77), some 2, [], CType.view, LayoutMode.none,
      false, false, false⟩]⟩

end WayCooler

namespace WayCooler.WM

/-
  Model of src/src/layout/layout.rs.  This module of the repository is
  written against container and tree modules that the sources do not
  contain; the tree it uses is a value tree whose nodes expose get_val,
  get_children, new_child (append a child), and a search by view
  handle.  These missing pieces are modelled from the spec below, each
  marked as such; the workspace-manager logic itself follows layout.rs.
-/

/-- Handles stored by the missing container module, as used from
layout.rs: a view surface or an output surface. -/
inductive LHandle where
  | view (id : Nat)
  | output (id : Nat)
deriving DecidableEq, Repr

/-- Modelled from the spec: the value part of a tree node of the
missing container module, carrying the display name used for
workspace labels, the optional surface handle and the focus flag. -/
structure LVal where
  name : String
  handle : Option LHandle
  focused : Bool
deriving DecidableEq, Repr

/-- Modelled from the spec: a node of the missing tree module, a value
with an ordered children sequence. -/
inductive LNode where
  | mk (val : LVal) (children : List LNode)

/-- The value stored at a node. -/
def LNode.val : LNode → LVal
  | LNode.mk v _ => v

/-- The ordered children of a node. -/
def LNode.children : LNode → List LNode
  | LNode.mk _ cs => cs

/-- The process-wide workspace-manager state of layout.rs: the tree
below ROOT, the CURRENT_WORKSPACE index, and the per-surface
visibility masks held by the external compositor (a map from view
handle id to mask). -/
structure WmSt where
  tree : LNode
  cur : Nat
  masks : Nat → Nat

/-- Number of view nodes with the given handle in a forest, the node
itself and all descendants counted. -/
def countL (h : Nat) : List LNode → Nat
  | [] => 0
  | LNode.mk v cs :: rest =>
    (if v.handle = some (LHandle.view h) then 1 else 0) + countL h cs + countL h rest

/-- Modelled from the spec: find_view_by_handle combined with the
removal of the found node from its parent, as a preorder walk that
deletes the first view node carrying the handle and reports whether
one was found. -/
def removeL (h : Nat) : List LNode → List LNode × Bool
  | [] => ([], false)
  | LNode.mk v cs :: rest =>
    if v.handle = some (LHandle.view h) then (rest, true)
    else
      match removeL h cs with
      | (cs', true) => (LNode.mk v cs' :: rest, true)
      | (_, false) =>
        match removeL h rest with
        | (rest', f) => (LNode.mk v cs :: rest', f)

/-- layout::remove_view: search the tree for a view with the handle; if
found, unwrap its parent and remove it there; silently do nothing when
the handle is absent.  A match on the root itself would unwrap a
missing parent (none). -/
def removeView (r : LNode) (h : Nat) : Option LNode :=
  if r.val.handle = some (LHandle.view h) then none
  else some (LNode.mk r.val (removeL h r.children).1)

/-- Number of view nodes with the given handle in a whole tree, the
root included. -/
def countNode (h : Nat) (r : LNode) : Nat :=
  (if r.val.handle = some (LHandle.view h) then 1 else 0) + countL h r.children

/-- Collect the view handle ids of a list of nodes exactly as the
switch_workspace loops do: each child has its handle unwrapped (none
on a missing handle, modelling the failed unwrap), view handles are
kept and output handles are skipped. -/
def viewIds : List LNode → Option (List Nat)
  | [] => some []
  | n :: rest =>
    match n.val.handle with
    | none => none
    | some (LHandle.view v) => (viewIds rest).map (fun vs => v :: vs)
    | some (LHandle.output _) => viewIds rest

/-- Assign one mask value to every listed view handle. -/
def applyAll (vs : List Nat) (c : Nat) (m : Nat → Nat) : Nat → Nat :=
  vs.foldl (fun acc v => fun x => if x = v then c else acc x) m

/-- layout::switch_workspace: index the first output (abort when there
is none), unwrap the workspace at the current index and set every view
below it to mask 0, unwrap the workspace at the target index and set
every view below it to mask 1, then store the target index. -/
def switchWs (st : WmSt) (i : Nat) : Option WmSt :=
  match st.tree.children[0]? with
  | none => none
  | some output =>
    match output.children[st.cur]? with
    | none => none
    | some oldW =>
      match viewIds oldW.children with
      | none => none
      | some oldVs =>
        match output.children[i]? with
        | none => none
        | some newW =>
          match viewIds newW.children with
          | none => none
          | some newVs =>
            some ⟨st.tree, i, applyAll newVs 1 (applyAll oldVs 0 st.masks)⟩

/-- Modelled from the spec: Container::new_workspace of the missing
container module, building a workspace node with a display name. -/
def mkWorkspace (name : String) : LNode :=
  LNode.mk ⟨name, none, false⟩ []

/-- layout::add_workspace: the count is taken from the children of ROOT
(the outputs), the new workspace is named count + 1 and appended below
the first child of ROOT, aborting when ROOT has no children. -/
def addWorkspace (st : WmSt) : Option WmSt :=
  let cnt := st.tree.children.length
  let ws := mkWorkspace (toString (cnt + 1))
  match st.tree.children with
  | [] => none
  | out :: rest =>
    some { st with
      tree := LNode.mk st.tree.val (LNode.mk out.val (out.children ++ [ws]) :: rest) }

/-- layout::add_output: append a fresh output node below ROOT, then run
add_workspace twice. -/
def addOutput (st : WmSt) (h : Nat) : Option WmSt :=
  let st1 := { st with
    tree := LNode.mk st.tree.val
      (st.tree.children ++ [LNode.mk ⟨"", some (LHandle.output h), false⟩ []]) }
  (addWorkspace st1).bind addWorkspace

/-- The workspace names below the outputs of a state, outermost list
indexed by output. -/
def wsNames (st : WmSt) : List (List String) :=
  st.tree.children.map (fun o => o.children.map (fun w => w.val.name))

end WayCooler.WM

namespace WayCooler

/-
  Concrete states used by counterexamples and witnesses.
-/

/-- The state reached by root, output, workspace, container, then a view
created on the container: the view (index 4) is promoted to a sibling,
landing in the children of the workspace (index 2) while its
back-reference names the container (index 3). -/
def stSib : St :=
  ⟨[some ⟨none, none, [1], CType.root, LayoutMode.none, false, false, false⟩,
    some ⟨some (Handle.output 10), some 0, [2], CType.output, LayoutMode.none,
      false, false, false⟩,
    some ⟨some (Handle.output 10), some 1, [3, 4], CType.workspace, LayoutMode.none,
      false, false, false⟩,
    some ⟨some (Handle.output 10), some 2, [], CType.container, LayoutMode.none,
      false, false, false⟩,
    some ⟨some (Handle.view 77), some 3, [], CType.view, LayoutMode.none,
      false, false, false⟩]⟩

/-- The state reached by root, output, workspace, then two containers on
the workspace: two siblings of equal type below index 2. -/
def stDup : St :=
  ⟨[some ⟨none, none, [1], CType.root, LayoutMode.none, false, false, false⟩,
    some ⟨some (Handle.output 10), some 0, [2], CType.output, LayoutMode.none,
      false, false, false⟩,
    some ⟨some (Handle.output 10), some 1, [3, 4], CType.workspace, LayoutMode.none,
      false, false, false⟩,
    some ⟨some (Handle.output 10), some 2, [], CType.container, LayoutMode.none,
      false, false, false⟩,
    some ⟨some (Handle.output 10), some 2, [], CType.container, LayoutMode.none,
      false, false, false⟩]⟩

/-- stDup after remove_container on index 4: the scan removed the first
container of matching type, index 3, leaving index 4 in place. -/
def stDup' : St :=
  ⟨[some ⟨none, none, [1], CType.root, LayoutMode.none, false, false, false⟩,
    some ⟨some (Handle.output 10), some 0, [2], CType.output, LayoutMode.none,
      false, false, false⟩,
    some ⟨some (Handle.output 10), some 1, [4], CType.workspace, LayoutMode.none,
      false, false, false⟩,
    some ⟨some (Handle.output 10), some 2, [], CType.container, LayoutMode.none,
      false, false, false⟩,
    some ⟨some (Handle.output 10), some 2, [], CType.container, LayoutMode.none,
      false, false, false⟩]⟩

/-- A root owning a view (index 1) that in turn has a container (index
2) carrying it as back-reference: the resolved parent of index 2 is a
view, so the delegated add_child inside add_sibling must reject. -/
def stViewParent : St :=
  ⟨[some ⟨none, none, [1], CType.root, LayoutMode.none, false, false, false⟩,
    some ⟨some (Handle.view 9), some 0, [], CType.view, LayoutMode.none,
      false, false, false⟩,
    some ⟨some (Handle.output 9), some 1, [], CType.container, LayoutMode.none,
      false, false, false⟩]⟩

/-- A root plus a container whose back-reference names index 5, which
was never allocated: an orphaned node whose weak parent upgrade fails. -/
def stOrphan : St :=
  ⟨[some ⟨none, none, [], CType.root, LayoutMode.none, false, false, false⟩,
    some ⟨some (Handle.output 9), some 5, [], CType.container, LayoutMode.none,
      false, false, false⟩]⟩

end WayCooler


namespace WayCooler

/-
  Arena access lemmas shared by the claim proofs.
-/

theorem getC_lt_length {st : St} {i : Nat} {c : Container} (h : getC st i = some c) :
    i < st.nodes.length := by
  by_contra hlt
  simp [getC, List.getElem?_eq_none (Nat.le_of_not_lt hlt)] at h

theorem getC_push_lt {st : St} {c : Container} {i : Nat} (h : i < st.nodes.length) :
    getC (pushNode st c).1 i = getC st i := by
  simp [getC, pushNode, List.getElem?_append_left h]

theorem getC_push_self {st : St} {c : Container} :
    getC (pushNode st c).1 st.nodes.length = some c := by
  simp [getC, pushNode]

theorem getC_setC_ne {st : St} {i j : Nat} {c : Container} (h : i ≠ j) :
    getC (setC st i c) j = getC st j := by
  simp [getC, setC, List.getElem?_set_ne h]

theorem getC_setC_self {st : St} {i : Nat} {c : Container} (h : i < st.nodes.length) :
    getC (setC st i c) i = some c := by
  simp [getC, setC, List.getElem?_set_self h]

theorem getParent_push {st : St} {c : Container} {p gp : Nat}
    (hp : p < st.nodes.length) (h : getParent st p = some gp) :
    getParent (pushNode st c).1 p = some gp := by
  rw [getParent] at h ⊢
  rw [getC_push_lt hp]
  cases hpc : getC st p with
  | none => rw [hpc] at h; exact absurd h (by simp)
  | some cp =>
    rw [hpc] at h
    by_cases hr : cp.container_type = CType.root
    · simp [hr] at h
    · simp only [hr, if_false] at h ⊢
      cases hpar : cp.parent with
      | none => rw [hpar] at h; exact absurd h (by simp)
      | some q =>
        rw [hpar] at h
        by_cases hq : (getC st q).isSome
        · have hqg : q = gp := by simpa [hq] using h
          have hqlt : q < st.nodes.length := by
            cases hgq : getC st q with
            | none => rw [hgq] at hq; simp at hq
            | some cq => exact getC_lt_length hgq
          rw [← hqg]
          simp [getC_push_lt hqlt, hq]
        · simp [hq] at h

/-- Claim C1, counterexample: the operation sequence root, output,
workspace, container, view-on-container runs without abort or error,
yet the resulting view (index 4) carries a parent back-reference that
resolves to the container (index 3) while appearing zero times in the
children of that container (sibling promotion inserted it below the
workspace instead), violating the back-reference invariant the claim
asserts for all successful runs. -/
theorem C1_counterexample :
    runOps newRoot
        [Op.newOutput 0 10, Op.newWorkspace 1, Op.newContainer 2, Op.newView 3 77] =
      some stSib ∧
    getC stSib 4 = some (viewC 3 77) ∧
    (viewC 3 77).parent = some 3 ∧
    (getC stSib 3).isSome = true ∧
    (getC stSib 3).map (fun c => c.children.count 4) = some 0 := by
  decide

/-- Claim C3, counterexample: in stDup the workspace (index 2) owns two
containers, indices 3 and 4.  remove_container on index 4 succeeds but
removes index 3 (remove_child matches children by container type
only), leaving index 4 in the children of its parent and still
reachable from the root, contrary to the claim that exactly the node
itself is removed and unreachable afterwards. -/
theorem C3_counterexample :
    removeContainer stDup 4 = some (Except.ok stDup') ∧
    (getC stDup' 2).map (fun c => c.children) = some [4] ∧
    Reach stDup' 0 4 := by
  refine ⟨by rfl, by decide, ?_⟩
  have h1 : childEdge stDup' 0 1 := ⟨_, rfl, by decide⟩
  have h2 : childEdge stDup' 1 2 := ⟨_, rfl, by decide⟩
  have h3 : childEdge stDup' 2 4 := ⟨_, rfl, by decide⟩
  exact Relation.ReflTransGen.tail
    (Relation.ReflTransGen.tail (Relation.ReflTransGen.single h1) h2) h3

/-- Claim C5: add_child returns an error exactly when the receiver is a
view or both receiver and argument are workspaces, and in every other
case appends the child at the end of the children sequence, leaving
the previous children and their order unchanged. -/
theorem C5_add_child :
    ∀ (st : St) (s c : Nat) (cs cc : Container),
      getC st s = some cs → getC st c = some cc →
      ((cs.container_type = CType.view ∨
        (cs.container_type = CType.workspace ∧ cc.container_type = CType.workspace)) →
        ∃ e, addChild st s c = some (Except.error e)) ∧
      (¬(cs.container_type = CType.view ∨
         (cs.container_type = CType.workspace ∧ cc.container_type = CType.workspace)) →
        addChild st s c =
          some (Except.ok (setC st s { cs with children := cs.children ++ [c] }))) := by
  intro st s c cs cc hs hc
  constructor
  · intro h
    by_cases hw : cs.container_type = CType.workspace ∧ cc.container_type = CType.workspace
    · exact ⟨"Only containers can be children of a workspace", by simp [addChild, hs, hc, hw]⟩
    · have hv : cs.container_type = CType.view := by tauto
      exact ⟨"Cannot add child to a view", by simp [addChild, hs, hc, hw, hv]⟩
  · intro h
    push_neg at h
    obtain ⟨hv, hw⟩ := h
    have hw' : ¬(cs.container_type = CType.workspace ∧ cc.container_type = CType.workspace) :=
      fun hh => hw hh.1 hh.2
    simp [addChild, hs, hc, hv, hw']

/-- Claim C5, witness: in stSib, adding to the view at index 4 errors,
while adding index 3 below the root at index 0 succeeds and appends. -/
theorem C5_witness :
    (∃ e, addChild stSib 4 3 = some (Except.error e)) ∧
    addChild stSib 0 3 =
      some (Except.ok (setC stSib 0
        { handle := none, parent := none, children := [1, 3],
          container_type := CType.root, layout := LayoutMode.none,
          visible := false, is_focused := false, is_floating := false })) := by
  constructor
  · exact (C5_add_child stSib 4 3 _ _ rfl rfl).1 (by decide)
  · exact (C5_add_child stSib 0 3 _ _ rfl rfl).2 (by decide)

/-- Claim C2: new_view aborts on a Root parent; on a Workspace parent it
appends the fresh view as a direct child of that workspace; on a
Container parent whose own parent resolves it appends the fresh view
as a child of that grandparent, while the container keeps its children
unchanged (the fresh index is not among them). -/
theorem C2_new_view :
    ∀ (st : St) (p vh : Nat) (cp : Container),
      getC st p = some cp →
      (cp.container_type = CType.root → newView st p vh = none) ∧
      (cp.container_type = CType.workspace →
        newView st p vh =
          some (⟨st.nodes.set p
              (some { cp with children := cp.children ++ [st.nodes.length] }) ++
              [some (viewC p vh)]⟩, st.nodes.length)) ∧
      (cp.container_type = CType.container →
        ∀ (gp : Nat) (cgp : Container),
          getParent st p = some gp → gp ≠ p → getC st gp = some cgp →
          cgp.container_type ≠ CType.view →
          (∀ j ∈ cp.children, j < st.nodes.length) →
          newView st p vh =
            some (⟨st.nodes.set gp
                (some { cgp with children := cgp.children ++ [st.nodes.length] }) ++
                [some (viewC p vh)]⟩, st.nodes.length) ∧
          getC ⟨st.nodes.set gp
              (some { cgp with children := cgp.children ++ [st.nodes.length] }) ++
              [some (viewC p vh)]⟩ p = some cp ∧
          st.nodes.length ∉ cp.children) := by
  intro st p vh cp hp
  have hplt : p < st.nodes.length := getC_lt_length hp
  have hn2 : (pushNode st (viewC p vh)).2 = st.nodes.length := rfl
  refine ⟨fun hr => by simp [newView, hp, hr], ?_, ?_⟩
  · intro hw
    have h1 : getC (pushNode st (viewC p vh)).1 p = some cp := by
      rw [getC_push_lt hplt, hp]
    have h2 : getC (pushNode st (viewC p vh)).1 st.nodes.length = some (viewC p vh) :=
      getC_push_self
    have haC : addChild (pushNode st (viewC p vh)).1 p st.nodes.length =
        some (Except.ok (setC (pushNode st (viewC p vh)).1 p
          { cp with children := cp.children ++ [st.nodes.length] })) := by
      unfold addChild
      rw [h1, h2]
      simp [hw, viewC]
    have hset : setC (pushNode st (viewC p vh)).1 p
        { cp with children := cp.children ++ [st.nodes.length] } =
        ⟨st.nodes.set p (some { cp with children := cp.children ++ [st.nodes.length] }) ++
          [some (viewC p vh)]⟩ := by
      simp [setC, pushNode, List.set_append_left _ _ hplt]
    rw [hw] at haC hset
    simp [newView, hp, hw, hn2, haC, hset]
  · intro hc gp cgp hgp hgpne hcgp hcv hbound
    have hgplt : gp < st.nodes.length := getC_lt_length hcgp
    have h1 : getC (pushNode st (viewC p vh)).1 p = some cp := by
      rw [getC_push_lt hplt, hp]
    have h2 : getC (pushNode st (viewC p vh)).1 st.nodes.length = some (viewC p vh) :=
      getC_push_self
    have h3 : getC (pushNode st (viewC p vh)).1 gp = some cgp := by
      rw [getC_push_lt hgplt, hcgp]
    have hgp1 : getParent (pushNode st (viewC p vh)).1 p = some gp :=
      getParent_push hplt hgp
    have haC : addChild (pushNode st (viewC p vh)).1 gp st.nodes.length =
        some (Except.ok (setC (pushNode st (viewC p vh)).1 gp
          { cgp with children := cgp.children ++ [st.nodes.length] })) := by
      unfold addChild
      rw [h3, h2]
      simp [hcv, viewC]
    have haS : addSibling (pushNode st (viewC p vh)).1 p st.nodes.length =
        some (Except.ok (setC (pushNode st (viewC p vh)).1 gp
          { cgp with children := cgp.children ++ [st.nodes.length] })) := by
      unfold addSibling
      rw [h1]
      simp [hc, hgp1, haC]
    have hset : setC (pushNode st (viewC p vh)).1 gp
        { cgp with children := cgp.children ++ [st.nodes.length] } =
        ⟨st.nodes.set gp (some { cgp with children := cgp.children ++ [st.nodes.length] }) ++
          [some (viewC p vh)]⟩ := by
      simp [setC, pushNode, List.set_append_left _ _ hgplt]
    refine ⟨by simp [newView, hp, hc, hn2, haS, hset], ?_, ?_⟩
    · have hplen : p < (st.nodes.set gp
          (some { cgp with children := cgp.children ++ [st.nodes.length] })).length := by
        simpa using hplt
      simp only [getC, List.getElem?_append_left hplen, List.getElem?_set_ne hgpne]
      simpa [getC] using hp
    · exact fun hmem => Nat.lt_irrefl _ (hbound _ hmem)

/-- Claim C2, witness: in stSib, new_view on the workspace (index 2)
appends a direct child, and new_view on the container (index 3)
promotes the fresh view to a child of the workspace, leaving the
container childless. -/
theorem C2_witness :
    newView stSib 3 88 =
      some (⟨stSib.nodes.set 2
          (some { handle := some (Handle.output 10), parent := some 1,
                  children := [3, 4, 5], container_type := CType.workspace,
                  layout := LayoutMode.none, visible := false,
                  is_focused := false, is_floating := false }) ++
          [some (viewC 3 88)]⟩, 5) ∧
    getC ⟨stSib.nodes.set 2
        (some { handle := some (Handle.output 10), parent := some 1,
                children := [3, 4, 5], container_type := CType.workspace,
                layout := LayoutMode.none, visible := false,
                is_focused := false, is_floating := false }) ++
        [some (viewC 3 88)]⟩ 3 =
      some { handle := some (Handle.output 10), parent := some 2, children := [],
             container_type := CType.container, layout := LayoutMode.none,
             visible := false, is_focused := false, is_floating := false } ∧
    (5 : Nat) ∉ ([] : List Nat) := by
  exact (C2_new_view stSib 3 88 _ rfl).2.2 (by decide) 2 _ rfl (by decide) rfl
    (by decide) (by decide)

/-- Claim C10: when a non-root node has a resolving parent, add_sibling
returns Ok with the state unchanged even though the delegated
add_child rejected the insertion, so the caller cannot observe the
rejection. -/
theorem C10_add_sibling_discards :
    ∀ (st : St) (n x p : Nat) (c : Container) (e : String),
      getC st n = some c → c.container_type ≠ CType.root →
      getParent st n = some p →
      addChild st p x = some (Except.error e) →
      addSibling st n x = some (Except.ok st) := by
  intro st n x p c e hn hr hp ha
  simp [addSibling, hn, hr, hp, ha]

/-- Claim C10, witness: in stViewParent, index 2 resolves its parent to
the view at index 1, whose add_child rejects; add_sibling still
returns Ok and the tree is unchanged. -/
theorem C10_witness : addSibling stViewParent 2 0 = some (Except.ok stViewParent) :=
  C10_add_sibling_discards stViewParent 2 0 1 _ "Cannot add child to a view"
    rfl (by decide) rfl rfl

/-- Claim C7, counterexample: index 1 of stOrphan is a non-root node
whose parent back-reference (index 5) does not resolve.  get_parent
returns None as the claim says, but add_sibling does not report a
result value: it aborts on the unwrap of the unresolved parent
(modelled by the none result). -/
theorem C7_counterexample :
    getParent stOrphan 1 = none ∧ addSibling stOrphan 1 0 = none :=
  ⟨rfl, rfl⟩

/-- Claim C7 as amended: for a non-root node whose parent weak
reference fails to resolve, get_parent returns None, remove_container
still reports a result value (Ok with the tree unchanged when the node
is not a workspace), but add_sibling aborts on its unwrap of the
unresolved parent instead of reporting a result. -/
theorem C7_orphan_amended :
    ∀ (st : St) (n p x : Nat) (c : Container),
      getC st n = some c → c.container_type ≠ CType.root →
      c.parent = some p → getC st p = none →
      getParent st n = none ∧
      (removeContainer st n).isSome = true ∧
      (c.container_type ≠ CType.workspace → removeContainer st n = some (Except.ok st)) ∧
      addSibling st n x = none := by
  intro st n p x c hn hr hp hdead
  have hgp : getParent st n = none := by
    simp [getParent, hn, hr, hp, hdead]
  refine ⟨hgp, ?_, ?_, ?_⟩
  · by_cases hw : c.container_type = CType.workspace
    · simp [removeContainer, hn, hr, hw]
    · simp [removeContainer, hn, hr, hw, hgp]
  · intro hw
    simp [removeContainer, hn, hr, hw, hgp]
  · simp [addSibling, hn, hr, hgp]

/-- Claim C7, witness: the amended statement at the orphaned container
of stOrphan. -/
theorem C7_witness :
    getParent stOrphan 1 = none ∧
    removeContainer stOrphan 1 = some (Except.ok stOrphan) ∧
    addSibling stOrphan 1 0 = none := by
  have h := C7_orphan_amended stOrphan 1 5 0 _ rfl (by decide) rfl rfl
  exact ⟨h.1, h.2.2.1 (by decide), h.2.2.2⟩

/-- Shape of the handle count on a cons cell. -/
theorem countL_cons (h : Nat) (v : WM.LVal) (cs rest : List WM.LNode) :
    WM.countL h (WM.LNode.mk v cs :: rest) =
      (if v.handle = some (WM.LHandle.view h) then 1 else 0) +
        WM.countL h cs + WM.countL h rest := by
  simp [WM.countL]

/-- A forest without the handle is returned unchanged, not found. -/
theorem removeL_count_zero (h : Nat) :
    ∀ l : List WM.LNode, WM.countL h l = 0 → WM.removeL h l = (l, false) := by
  intro l
  induction l using WM.removeL.induct (h := h) with
  | case1 => intro _; simp [WM.removeL]
  | case2 v cs rest hv =>
    intro hc
    rw [countL_cons, if_pos hv] at hc
    exact absurd hc (by omega)
  | case3 v cs rest hv cs' hcs ih =>
    intro hc
    rw [countL_cons, if_neg hv] at hc
    have h1 : WM.countL h cs = 0 := by omega
    rw [ih h1] at hcs
    simp at hcs
  | case4 v cs rest hv fst hcs rest' f hrest ihcs ihrest =>
    intro hc
    rw [countL_cons, if_neg hv] at hc
    have h1 : WM.countL h cs = 0 := by omega
    have h2 : WM.countL h rest = 0 := by omega
    simp [WM.removeL, hv, ihcs h1, ihrest h2]

/-- A scan that reports not-found leaves the forest unchanged and
implies no node carries the handle. -/
theorem removeL_not_found (h : Nat) :
    ∀ l : List WM.LNode, (WM.removeL h l).2 = false →
      WM.countL h l = 0 ∧ (WM.removeL h l).1 = l := by
  intro l
  induction l using WM.removeL.induct (h := h) with
  | case1 =>
    intro _
    constructor
    · simp [WM.countL]
    · simp [WM.removeL]
  | case2 v cs rest hv =>
    intro hf
    exfalso
    simp [WM.removeL, hv] at hf
  | case3 v cs rest hv cs' hcs ih =>
    intro hf
    exfalso
    simp [WM.removeL, hv, hcs] at hf
  | case4 v cs rest hv fst hcs rest' f hrest ihcs ihrest =>
    intro hf
    have hf' : f = false := by
      simp [WM.removeL, hv, hcs, hrest] at hf
      exact hf
    subst hf'
    obtain ⟨ic1, ic2⟩ := ihcs (by rw [hcs])
    obtain ⟨ir1, ir2⟩ := ihrest (by rw [hrest])
    rw [hrest] at ir2
    constructor
    · rw [countL_cons, if_neg hv]
      omega
    · simp only [WM.removeL, hv, ite_false, if_neg, hcs, hrest]
      simp at ir2
      simp [ir2]

/-- A scan that reports found strictly decreases the handle count. -/
theorem removeL_found_count (h : Nat) :
    ∀ l : List WM.LNode, (WM.removeL h l).2 = true →
      WM.countL h ((WM.removeL h l).1) + 1 ≤ WM.countL h l := by
  intro l
  induction l using WM.removeL.induct (h := h) with
  | case1 =>
    intro hf
    simp [WM.removeL] at hf
  | case2 v cs rest hv =>
    intro _
    have e : WM.removeL h (WM.LNode.mk v cs :: rest) = (rest, true) := by
      simp [WM.removeL, hv]
    simp only [e]
    rw [countL_cons, if_pos hv]
    omega
  | case3 v cs rest hv cs' hcs ih =>
    intro _
    have ihc : WM.countL h cs' + 1 ≤ WM.countL h cs := by
      have := ih (by rw [hcs])
      rw [hcs] at this
      simpa using this
    have e : WM.removeL h (WM.LNode.mk v cs :: rest) = (WM.LNode.mk v cs' :: rest, true) := by
      simp [WM.removeL, hv, hcs]
    simp only [e]
    rw [countL_cons, if_neg hv, countL_cons, if_neg hv]
    omega
  | case4 v cs rest hv fst hcs rest' f hrest ihcs ihrest =>
    intro hf
    have hf' : f = true := by
      simp [WM.removeL, hv, hcs, hrest] at hf
      exact hf
    subst hf'
    have ihr : WM.countL h rest' + 1 ≤ WM.countL h rest := by
      have := ihrest (by rw [hrest])
      rw [hrest] at this
      simpa using this
    have e : WM.removeL h (WM.LNode.mk v cs :: rest) = (WM.LNode.mk v cs :: rest', true) := by
      simp [WM.removeL, hv, hcs, hrest]
    simp only [e]
    rw [countL_cons, if_neg hv, countL_cons, if_neg hv]
    omega

/-- Claim C6: remove_view for a handle matching no view is a no-op
returning the unchanged tree, and when the tree holds at most one view
with the handle, a second remove_view for it leaves the tree produced
by the first call unchanged. -/
theorem C6_remove_view_noop :
    ∀ (r : WM.LNode) (h : Nat),
      (WM.countNode h r = 0 → WM.removeView r h = some r) ∧
      (WM.countNode h r ≤ 1 →
        ∀ r', WM.removeView r h = some r' → WM.removeView r' h = some r') := by
  intro r h
  cases r with
  | mk v cs =>
    constructor
    · intro hc
      rw [WM.countNode] at hc
      simp only [WM.LNode.val, WM.LNode.children] at hc
      have hv : ¬ v.handle = some (WM.LHandle.view h) := by
        intro hvv
        rw [if_pos hvv] at hc
        omega
      rw [if_neg hv] at hc
      have hcs : WM.countL h cs = 0 := by omega
      simp only [WM.removeView, WM.LNode.val, WM.LNode.children, if_neg, hv, ite_false]
      rw [removeL_count_zero h cs hcs]
    · intro hcle r' hrv
      simp only [WM.removeView, WM.LNode.val, WM.LNode.children] at hrv
      by_cases hv : v.handle = some (WM.LHandle.view h)
      · rw [if_pos hv] at hrv
        exact absurd hrv (by simp)
      · rw [if_neg hv] at hrv
        injection hrv with hr'
        subst hr'
        have hcsle : WM.countL h cs ≤ 1 := by
          rw [WM.countNode] at hcle
          simp only [WM.LNode.val, WM.LNode.children] at hcle
          rw [if_neg hv] at hcle
          omega
        have hl0 : WM.countL h ((WM.removeL h cs).1) = 0 := by
          cases hfb : (WM.removeL h cs).2 with
          | true =>
            have := removeL_found_count h cs hfb
            omega
          | false =>
            have hnf := removeL_not_found h cs hfb
            rw [hnf.2]
            exact hnf.1
        simp only [WM.removeView, WM.LNode.val, WM.LNode.children, if_neg, hv, ite_false]
        rw [removeL_count_zero h _ hl0]

/-- Claim C6, witness: a root holding exactly one view with handle 7;
removing it twice gives the same tree as removing it once. -/
theorem C6_witness :
    WM.removeView (WM.LNode.mk ⟨"root", none, false⟩ []) 7 =
      some (WM.LNode.mk ⟨"root", none, false⟩ []) :=
  (C6_remove_view_noop
      (WM.LNode.mk ⟨"root", none, false⟩
        [WM.LNode.mk ⟨"v", some (WM.LHandle.view 7), false⟩ []]) 7).2
    (by simp [WM.countNode, WM.countL, WM.LNode.val, WM.LNode.children])
    (WM.LNode.mk ⟨"root", none, false⟩ [])
    (by simp [WM.removeView, WM.removeL, WM.LNode.val, WM.LNode.children])

/-- Pointwise description of mask assignment: every listed view handle
gets the written value, every other handle keeps its mask. -/
theorem applyAll_apply :
    ∀ (vs : List Nat) (c : Nat) (m : Nat → Nat) (x : Nat),
      WM.applyAll vs c m x = if x ∈ vs then c else m x := by
  intro vs c
  induction vs with
  | nil => intro m x; simp [WM.applyAll]
  | cons v tl ih =>
    intro m x
    have hstep : WM.applyAll (v :: tl) c m =
        WM.applyAll tl c (fun y => if y = v then c else m y) := rfl
    rw [hstep, ih]
    by_cases hv : x = v
    · subst hv; simp
    · simp [hv]

/-- Claim C4: a successful switch_workspace call is idempotent: running
it again with the same target index returns exactly the state the
first call produced, every mask included. -/
theorem C4_switch_workspace_idempotent :
    ∀ (st : WM.WmSt) (i : Nat) (s' : WM.WmSt),
      WM.switchWs st i = some s' → WM.switchWs s' i = some s' := by
  intro st i s' h
  unfold WM.switchWs at h
  split at h
  · exact absurd h (by simp)
  · next output h0 =>
    split at h
    · exact absurd h (by simp)
    · next oldW h1 =>
      split at h
      · exact absurd h (by simp)
      · next oldVs h2 =>
        split at h
        · exact absurd h (by simp)
        · next newW h3 =>
          split at h
          · exact absurd h (by simp)
          · next newVs h4 =>
            have hs : s' = ⟨st.tree, i,
                WM.applyAll newVs 1 (WM.applyAll oldVs 0 st.masks)⟩ := by
              cases h; rfl
            subst hs
            have hM : WM.applyAll newVs 1 (WM.applyAll newVs 0
                (WM.applyAll newVs 1 (WM.applyAll oldVs 0 st.masks))) =
                WM.applyAll newVs 1 (WM.applyAll oldVs 0 st.masks) := by
              funext x
              by_cases hx : x ∈ newVs
              · simp [applyAll_apply, hx]
              · simp [applyAll_apply, hx]
            unfold WM.switchWs
            simp only [h0, h3, h4, hM]

/-- Claim C4, witness: a concrete manager with one output and two
workspaces, the active one holding a single view; the switched state
is a fixed point of switching again. -/
theorem C4_witness :
    WM.switchWs
        ⟨WM.LNode.mk ⟨"root", none, false⟩
          [WM.LNode.mk ⟨"out", some (WM.LHandle.output 3), false⟩
            [WM.LNode.mk ⟨"1", none, false⟩ [],
             WM.LNode.mk ⟨"2", none, false⟩
               [WM.LNode.mk ⟨"v", some (WM.LHandle.view 7), false⟩ []]]],
         1, WM.applyAll [7] 1 (WM.applyAll [7] 0 (fun _ => 5))⟩ 1 =
      some
        ⟨WM.LNode.mk ⟨"root", none, false⟩
          [WM.LNode.mk ⟨"out", some (WM.LHandle.output 3), false⟩
            [WM.LNode.mk ⟨"1", none, false⟩ [],
             WM.LNode.mk ⟨"2", none, false⟩
               [WM.LNode.mk ⟨"v", some (WM.LHandle.view 7), false⟩ []]]],
         1, WM.applyAll [7] 1 (WM.applyAll [7] 0 (fun _ => 5))⟩ :=
  C4_switch_workspace_idempotent
    ⟨WM.LNode.mk ⟨"root", none, false⟩
      [WM.LNode.mk ⟨"out", some (WM.LHandle.output 3), false⟩
        [WM.LNode.mk ⟨"1", none, false⟩ [],
         WM.LNode.mk ⟨"2", none, false⟩
           [WM.LNode.mk ⟨"v", some (WM.LHandle.view 7), false⟩ []]]],
     1, fun _ => 5⟩ 1 _ rfl

/-- Claim C8: in stSib the workspace at index 2 is an ancestor of the
view at index 4 (it holds 4 among its children), so the claim demands
is_parent_of to terminate with true; the source loop never advances
the child variable, so it compares the view with its own back-
reference target (the container at index 3) forever: for every fuel
the computation fails to terminate. -/
theorem C8_is_parent_of_diverges :
    ∀ fuel, isParentOfFuel stSib 2 4 fuel = none := by
  intro fuel
  induction fuel with
  | zero => rfl
  | succ n ih => exact ih

/-- Claim C9: starting from a bare root, add_output creates one output
and two default workspaces, then one further add_workspace call is
made.  The claim derives the third label from the workspace count
below the output (two), demanding 3; the source takes the length of
the children of ROOT (the single output), so all three workspaces are
labelled 2. -/
theorem C9_add_workspace_label :
    ((WM.addOutput ⟨WM.LNode.mk ⟨"root", none, false⟩ [], 0, fun _ => 0⟩ 9).bind
        WM.addWorkspace).map WM.wsNames =
      some [["2", "2", "2"]] := by
  rfl

/-
  Occurrence-count lemmas for the ownership uniqueness invariant.
-/

/-- The contribution of one live node bounds the tree-wide count. -/
theorem occ_single_le {st : St} {i : Nat} {c : Container}
    (h : getC st i = some c) (j : Nat) :
    c.children.count j ≤ occCount st j := by
  have hi : i < st.nodes.length := getC_lt_length h
  have hs := Finset.single_le_sum
    (f := fun i => match getC st i with
      | some c => c.children.count j
      | none => 0)
    (fun k _ => Nat.zero_le _) (Finset.mem_range.mpr hi)
  rw [occCount]
  simpa [h] using hs

/-- Two entries of a finite sum, at distinct points where the summand
is positive, push the sum to at least two. -/
theorem two_le_sum_of_two {f : Nat → Nat} {s : Finset Nat} {a b : Nat}
    (ha : a ∈ s) (hb : b ∈ s) (hne : a ≠ b) (h1 : 1 ≤ f a) (h2 : 1 ≤ f b) :
    2 ≤ ∑ x ∈ s, f x := by
  rw [← Finset.add_sum_erase _ _ ha]
  have hb' : b ∈ s.erase a := Finset.mem_erase.mpr ⟨Ne.symm hne, hb⟩
  have hs := Finset.single_le_sum (f := f) (fun k _ => Nat.zero_le _) hb'
  omega

/-- Two distinct live owners of the same index push the tree-wide count
to at least two. -/
theorem occ_two_le {st : St} {i1 i2 j : Nat} {c1 c2 : Container}
    (h1 : getC st i1 = some c1) (h2 : getC st i2 = some c2) (hne : i1 ≠ i2)
    (hm1 : j ∈ c1.children) (hm2 : j ∈ c2.children) : 2 ≤ occCount st j := by
  have hi1 : i1 < st.nodes.length := getC_lt_length h1
  have hi2 : i2 < st.nodes.length := getC_lt_length h2
  have h := two_le_sum_of_two
    (f := fun i => match getC st i with
      | some c => c.children.count j
      | none => 0)
    (Finset.mem_range.mpr hi1) (Finset.mem_range.mpr hi2) hne
    (by show 1 ≤ (match getC st i1 with
          | some c => c.children.count j
          | none => 0)
        rw [h1]
        exact List.one_le_count_iff.mpr hm1)
    (by show 1 ≤ (match getC st i2 with
          | some c => c.children.count j
          | none => 0)
        rw [h2]
        exact List.one_le_count_iff.mpr hm2)
  exact h

/-- When every ownership edge stays below the arena length, indices at
or past the length are owned by nobody. -/
theorem occ_zero_of_edges {st : St}
    (hb : ∀ i c, getC st i = some c → ∀ j ∈ c.children, j < st.nodes.length)
    {j : Nat} (hj : st.nodes.length ≤ j) : occCount st j = 0 := by
  rw [occCount]
  apply Finset.sum_eq_zero
  intro i _
  cases hgi : getC st i with
  | none => simp
  | some c =>
    simp only
    rw [List.count_eq_zero]
    intro hmem
    exact absurd (hb i c hgi j hmem) (Nat.not_lt.mpr hj)

/-- Ownership edges of an invariant-satisfying state stay below the
arena length. -/
theorem Inv.edge_lt {st : St} (inv : Inv st) :
    ∀ i c, getC st i = some c → ∀ j ∈ c.children, j < st.nodes.length := by
  intro i c hi j hj
  obtain ⟨_, cj, hcj, _⟩ := inv.edges i c hi j hj
  exact getC_lt_length hcj

/-- Erasing the occurrence at a known position lowers the count by
exactly one. -/
theorem count_eraseIdx_self :
    ∀ (l : List Nat) (k : Nat) (a : Nat), l[k]? = some a →
      (l.eraseIdx k).count a + 1 = l.count a := by
  intro l
  induction l with
  | nil => intro k a hk; simp at hk
  | cons hd tl ih =>
    intro k a hk
    cases k with
    | zero =>
      have ha : hd = a := by simpa using hk
      subst ha
      simp [List.eraseIdx, List.count_cons]
    | succ m =>
      have hk' : tl[m]? = some a := by simpa using hk
      have := ih m a hk'
      simp only [List.eraseIdx, List.count_cons]
      by_cases hha : hd = a <;> simp [hha] <;> omega

/-- The Bool invariant check implies the Prop invariant. -/
theorem Inv_of_invB {st : St} (h : invB st = true) : Inv st := by
  rw [invB, Bool.and_eq_true, Bool.and_eq_true, Bool.and_eq_true] at h
  obtain ⟨⟨⟨h1, h2⟩, h3⟩, h4⟩ := h
  have hedges : ∀ i c, getC st i = some c → ∀ j ∈ c.children,
      i < j ∧ ∃ cj, getC st j = some cj ∧
        legalPair c.container_type cj.container_type = true ∧ cj.parent = some i := by
    intro i c hgi j hj
    have hi : i < st.nodes.length := getC_lt_length hgi
    have h4' := (List.all_eq_true.mp h4) i (List.mem_range.mpr hi)
    rw [hgi] at h4'
    have hj' := (List.all_eq_true.mp (by unfold nodeOK at h4'; exact h4')) j hj
    rw [Bool.and_eq_true, Bool.and_eq_true] at hj'
    obtain ⟨⟨hlt, hlen⟩, hrest⟩ := hj'
    cases hgj : getC st j with
    | none => rw [hgj] at hrest; exact absurd hrest (by simp)
    | some cj =>
      rw [hgj] at hrest
      rw [Bool.and_eq_true] at hrest
      refine ⟨by exact_mod_cast of_decide_eq_true hlt, cj, rfl, hrest.1, ?_⟩
      have := hrest.2
      simpa using this
  refine ⟨?_, ?_, ?_, hedges⟩
  · rw [rootOK] at h1
    cases hg0 : getC st 0 with
    | none => rw [hg0] at h1; exact absurd h1 (by simp)
    | some c =>
      rw [hg0] at h1
      rw [Bool.and_eq_true] at h1
      exact ⟨c, rfl, by simpa using h1.1, by simpa using h1.2⟩
  · intro i c hgi htype
    have hi : i < st.nodes.length := getC_lt_length hgi
    have h2' := (List.all_eq_true.mp h2) i (List.mem_range.mpr hi)
    rw [hgi] at h2'
    rcases Bool.or_eq_true _ _ |>.mp h2' with hneg | heq
    · exact absurd htype (by simpa using hneg)
    · simpa using heq
  · intro j
    by_cases hj : j < st.nodes.length
    · have h3' := (List.all_eq_true.mp h3) j (List.mem_range.mpr hj)
      rw [uniqueOcc] at h3
      simpa using h3'
    · have hb : ∀ i c, getC st i = some c → ∀ j ∈ c.children, j < st.nodes.length := by
        intro i c hgi j hj
        obtain ⟨_, cj, hcj, _⟩ := hedges i c hgi j hj
        exact getC_lt_length hcj
      rw [occ_zero_of_edges hb (Nat.le_of_not_lt hj)]
      omega

/-- The single-root initial state satisfies the invariant. -/
theorem Inv_newRoot : Inv newRoot := by
  refine ⟨⟨rootC, rfl, rfl, rfl⟩, ?_, ?_, ?_⟩
  · intro i c hgi _
    rcases i with _ | m
    · rfl
    · exfalso
      rw [getC, newRoot] at hgi
      simp at hgi
  · intro j
    rw [occCount]
    simp [newRoot, getC, rootC]
  · intro i c hgi j hj
    rcases i with _ | m
    · rw [getC, newRoot] at hgi
      simp [rootC] at hgi
      rw [← hgi] at hj
      simp at hj
    · exfalso
      rw [getC, newRoot] at hgi
      simp at hgi

/-
  State-access lemmas for the attach and erase shapes.
-/

theorem attach_length {st : St} {p : Nat} {cp c : Container} :
    (attachSt st p cp c).nodes.length = st.nodes.length + 1 := by
  simp [attachSt]

theorem getC_attach_new {st : St} {p : Nat} {cp c : Container}
    (hp : p < st.nodes.length) :
    getC (attachSt st p cp c) st.nodes.length = some c := by
  rw [attachSt, getC]
  simp only
  rw [List.getElem?_append_right (by simpa using Nat.le_refl st.nodes.length)]
  simp

theorem getC_attach_parent {st : St} {p : Nat} {cp c : Container}
    (hp : p < st.nodes.length) :
    getC (attachSt st p cp c) p =
      some { cp with children := cp.children ++ [st.nodes.length] } := by
  rw [attachSt, getC]
  simp only
  rw [List.getElem?_append_left (by simpa using hp)]
  rw [List.getElem?_set_self (by simpa using hp)]
  simp

theorem getC_attach_other {st : St} {p : Nat} {cp c : Container} {i : Nat}
    (hne : i ≠ p) (hnl : i ≠ st.nodes.length) :
    getC (attachSt st p cp c) i = getC st i := by
  rw [attachSt, getC, getC]
  simp only
  by_cases hi : i < st.nodes.length
  · rw [List.getElem?_append_left (by simpa using hi), List.getElem?_set_ne (Ne.symm hne)]
  · have hgt : st.nodes.length < i :=
      Nat.lt_of_le_of_ne (Nat.le_of_not_lt hi) (Ne.symm hnl)
    rw [List.getElem?_eq_none (by simpa using hgt), List.getElem?_eq_none (Nat.le_of_lt hgt)]

theorem getC_erase_self {st : St} {s : Nat} {c : Container} {k : Nat}
    (hs : getC st s = some c) :
    getC (eraseSt st s c k) s = some { c with children := c.children.eraseIdx k } := by
  rw [eraseSt, getC]
  simp only
  rw [List.getElem?_set_self (getC_lt_length hs)]
  simp

theorem getC_erase_other {st : St} {s : Nat} {c : Container} {k i : Nat}
    (hne : i ≠ s) :
    getC (eraseSt st s c k) i = getC st i := by
  rw [eraseSt, getC, getC]
  simp only
  rw [List.getElem?_set_ne (Ne.symm hne)]

theorem erase_length {st : St} {s : Nat} {c : Container} {k : Nat} :
    (eraseSt st s c k).nodes.length = st.nodes.length := by
  simp [eraseSt]

/-- Attaching a childless fresh node adds exactly one occurrence, of
the fresh index. -/
theorem occCount_attach {st : St} {p : Nat} {cp c : Container} {j : Nat}
    (hp : getC st p = some cp) (hch : c.children = []) :
    occCount (attachSt st p cp c) j =
      occCount st j + (if j = st.nodes.length then 1 else 0) := by
  have hplt := getC_lt_length hp
  rw [occCount, attach_length, Finset.sum_range_succ]
  have hlast : (match getC (attachSt st p cp c) st.nodes.length with
      | some cc => cc.children.count j
      | none => 0) = 0 := by
    rw [getC_attach_new hplt]
    simp [hch]
  rw [hlast, Nat.add_zero]
  have hterm : ∀ i ∈ Finset.range st.nodes.length,
      (match getC (attachSt st p cp c) i with
        | some cc => cc.children.count j
        | none => 0) =
      (match getC st i with
        | some cc => cc.children.count j
        | none => 0) + (if i = p then (if j = st.nodes.length then 1 else 0) else 0) := by
    intro i hi
    have hilt := Finset.mem_range.mp hi
    by_cases hip : i = p
    · subst hip
      rw [getC_attach_parent hplt, hp]
      simp only [if_pos rfl]
      rw [List.count_append]
      congr 1
      by_cases hjl : j = st.nodes.length
      · subst hjl
        simp
      · simp [List.count_cons, hjl]
    · rw [getC_attach_other hip (Nat.ne_of_lt hilt)]
      simp [hip]
  rw [Finset.sum_congr rfl hterm, Finset.sum_add_distrib, occCount]
  congr 1
  rw [Finset.sum_ite_eq' (Finset.range st.nodes.length) p
    (fun _ => if j = st.nodes.length then 1 else 0)]
  rw [if_pos (Finset.mem_range.mpr hplt)]

/-- Erasing a child never raises any occurrence count. -/
theorem occ_erase_le {st : St} {s : Nat} {c : Container} {k : Nat}
    (hs : getC st s = some c) (j : Nat) :
    occCount (eraseSt st s c k) j ≤ occCount st j := by
  rw [occCount, occCount, erase_length]
  apply Finset.sum_le_sum
  intro i _
  by_cases his : i = s
  · subst his
    rw [getC_erase_self hs, hs]
    simp only
    exact (List.eraseIdx_sublist c.children k).count_le j
  · rw [getC_erase_other his]

/-- Attaching a fresh, childless, legally typed node below a live
parent preserves the invariant. -/
theorem Inv.attach {st : St} {p : Nat} {cp c : Container} (inv : Inv st)
    (hp : getC st p = some cp)
    (hlp : legalPair cp.container_type c.container_type = true)
    (hpar : c.parent = some p) (hch : c.children = []) :
    Inv (attachSt st p cp c) := by
  have hplt := getC_lt_length hp
  have hcnr : c.container_type ≠ CType.root := by
    intro hr
    rw [hr] at hlp
    cases htype : cp.container_type <;> rw [htype] at hlp <;> simp [legalPair] at hlp
  have hlen0 : (0 : Nat) ≠ st.nodes.length := by omega
  constructor
  · obtain ⟨c0, hg0, ht0, hp0⟩ := inv.root0
    by_cases h0p : p = 0
    · subst h0p
      rw [hp] at hg0
      injection hg0 with e
      subst e
      exact ⟨_, getC_attach_parent hplt, ht0, hp0⟩
    · exact ⟨c0, by rw [getC_attach_other (fun e => h0p e.symm) hlen0]; exact hg0, ht0, hp0⟩
  · intro i ci hci htype
    by_cases hil : i = st.nodes.length
    · subst hil
      rw [getC_attach_new hplt] at hci
      injection hci with e
      subst e
      exact absurd htype hcnr
    · by_cases hip : i = p
      · subst hip
        rw [getC_attach_parent hplt] at hci
        injection hci with e
        subst e
        exact inv.rootU i cp hp htype
      · rw [getC_attach_other hip hil] at hci
        exact inv.rootU i ci hci htype
  · intro j
    rw [occCount_attach hp hch]
    by_cases hj : j = st.nodes.length
    · subst hj
      rw [occ_zero_of_edges inv.edge_lt (Nat.le_refl _)]
      simp
    · simp only [hj, if_neg, ite_false]
      have := inv.uniq j
      omega
  · intro i ci hci j hj
    by_cases hil : i = st.nodes.length
    · subst hil
      rw [getC_attach_new hplt] at hci
      injection hci with e
      subst e
      rw [hch] at hj
      simp at hj
    · by_cases hip : i = p
      · subst hip
        rw [getC_attach_parent hplt] at hci
        injection hci with e
        subst e
        simp only at hj
        rcases List.mem_append.mp hj with hjold | hjnew
        · obtain ⟨hlt, cj, hcj, hleg, hparj⟩ := inv.edges i cp hp j hjold
          have hjlen : j < st.nodes.length := getC_lt_length hcj
          refine ⟨hlt, cj, ?_, ?_, hparj⟩
          · rw [getC_attach_other (Ne.symm (Nat.ne_of_lt hlt)) (Nat.ne_of_lt hjlen)]
            exact hcj
          · simpa using hleg
        · have hjl : j = st.nodes.length := by simpa using hjnew
          subst hjl
          exact ⟨hplt, c, getC_attach_new hplt, by simpa using hlp, hpar⟩
      · rw [getC_attach_other hip hil] at hci
        obtain ⟨hlt, cj, hcj, hleg, hparj⟩ := inv.edges i ci hci j hj
        have hjlen := getC_lt_length hcj
        by_cases hjp : j = p
        · subst hjp
          have e : cj = cp := by
            rw [hp] at hcj
            injection hcj with e2
            exact e2.symm
          refine ⟨hlt, _, getC_attach_parent hplt, ?_, ?_⟩
          · show legalPair ci.container_type cp.container_type = true
            exact e ▸ hleg
          · show cp.parent = some i
            exact e ▸ hparj
        · refine ⟨hlt, cj, ?_, hleg, hparj⟩
          rw [getC_attach_other hjp (Nat.ne_of_lt hjlen)]
          exact hcj

/-- Erasing one child position of a live node preserves the
invariant. -/
theorem Inv.erase {st : St} {s : Nat} {c : Container} {k : Nat} (inv : Inv st)
    (hs : getC st s = some c) :
    Inv (eraseSt st s c k) := by
  constructor
  · obtain ⟨c0, hg0, ht0, hp0⟩ := inv.root0
    by_cases h0s : s = 0
    · subst h0s
      rw [hs] at hg0
      injection hg0 with e
      subst e
      exact ⟨_, getC_erase_self hs, ht0, hp0⟩
    · exact ⟨c0, by rw [getC_erase_other (fun e => h0s e.symm)]; exact hg0, ht0, hp0⟩
  · intro i ci hci htype
    by_cases his : i = s
    · subst his
      rw [getC_erase_self hs] at hci
      injection hci with e
      subst e
      exact inv.rootU i c hs htype
    · rw [getC_erase_other his] at hci
      exact inv.rootU i ci hci htype
  · intro j
    exact Nat.le_trans (occ_erase_le hs j) (inv.uniq j)
  · intro i ci hci j hj
    by_cases his : i = s
    · subst his
      rw [getC_erase_self hs] at hci
      injection hci with e
      subst e
      simp only at hj
      have hjmem : j ∈ c.children := (List.eraseIdx_sublist c.children k).mem hj
      obtain ⟨hlt, cj, hcj, hleg, hparj⟩ := inv.edges i c hs j hjmem
      refine ⟨hlt, cj, ?_, by simpa using hleg, hparj⟩
      rw [getC_erase_other (Ne.symm (Nat.ne_of_lt hlt))]
      exact hcj
    · rw [getC_erase_other his] at hci
      obtain ⟨hlt, cj, hcj, hleg, hparj⟩ := inv.edges i ci hci j hj
      by_cases hjs : j = s
      · subst hjs
        have e : cj = c := by
          rw [hs] at hcj
          injection hcj with e2
          exact e2.symm
        refine ⟨hlt, _, getC_erase_self hs, ?_, ?_⟩
        · show legalPair ci.container_type c.container_type = true
          exact e ▸ hleg
        · show c.parent = some i
          exact e ▸ hparj
      · refine ⟨hlt, cj, ?_, hleg, hparj⟩
        rw [getC_erase_other hjs]
        exact hcj

/-
  Inversion of the successful constructor and removal operations into
  the attach and erase shapes.
-/

/-- The add_child call every constructor issues right after allocating
its fresh node produces exactly the attach shape. -/
theorem addChild_push {st : St} {p : Nat} {cp : Container} (cnew : Container)
    (hp : getC st p = some cp)
    (hws : ¬(cp.container_type = CType.workspace ∧ cnew.container_type = CType.workspace))
    (hv : cp.container_type ≠ CType.view) :
    addChild (pushNode st cnew).1 p (pushNode st cnew).2 =
      some (Except.ok (attachSt st p cp cnew)) := by
  have hplt := getC_lt_length hp
  have hst : setC (pushNode st cnew).1 p
      { cp with children := cp.children ++ [st.nodes.length] } = attachSt st p cp cnew := by
    simp [setC, pushNode, attachSt, List.set_append_left _ _ hplt]
  simp only [addChild, show (pushNode st cnew).2 = st.nodes.length from rfl,
    getC_push_lt hplt, hp, getC_push_self, if_neg hws, if_neg hv, hst]

theorem newOutput_ok {st : St} {p hdl : Nat} {st' : St} {n : Nat}
    (h : newOutput st p hdl = some (st', n)) :
    ∃ c, getC st p = some c ∧ c.container_type = CType.root ∧
      st' = attachSt st p c
        ⟨some (Handle.output hdl), some p, [], CType.output, LayoutMode.none,
          false, false, false⟩ := by
  unfold newOutput at h
  split at h
  · exact absurd h (by simp)
  · next c hc =>
    split at h
    · exact absurd h (by simp)
    · next hnr =>
      have hroot : c.container_type = CType.root := not_not.mp hnr
      simp only [addChild_push
        ⟨some (Handle.output hdl), some p, [], CType.output, LayoutMode.none,
          false, false, false⟩
        hc (by rw [hroot]; simp) (by rw [hroot]; simp)] at h
      injection h with h2
      rw [Prod.mk.injEq] at h2
      exact ⟨c, hc, hroot, h2.1.symm⟩

theorem newWorkspace_ok {st : St} {p : Nat} {st' : St} {n : Nat}
    (h : newWorkspace st p = some (st', n)) :
    ∃ c hdl, getC st p = some c ∧ c.container_type = CType.output ∧
      c.handle = some hdl ∧
      st' = attachSt st p c
        ⟨some hdl, some p, [], CType.workspace, LayoutMode.none,
          false, false, false⟩ := by
  unfold newWorkspace at h
  split at h
  · exact absurd h (by simp)
  · next c hc =>
    split at h
    · exact absurd h (by simp)
    · next hnr =>
      have hout : c.container_type = CType.output := not_not.mp hnr
      split at h
      · exact absurd h (by simp)
      · next hdl hhdl =>
        simp only [addChild_push
          ⟨some hdl, some p, [], CType.workspace, LayoutMode.none,
            false, false, false⟩
          hc (by rw [hout]; simp) (by rw [hout]; simp)] at h
        injection h with h2
        rw [Prod.mk.injEq] at h2
        exact ⟨c, hdl, hc, hout, hhdl, h2.1.symm⟩

theorem newContainer_ok {st : St} {p : Nat} {st' : St} {n : Nat}
    (h : newContainer st p = some (st', n)) :
    ∃ c hdl, getC st p = some c ∧
      (c.container_type = CType.container ∨ c.container_type = CType.workspace) ∧
      c.handle = some hdl ∧
      st' = attachSt st p c
        ⟨some hdl, some p, [], CType.container, LayoutMode.none,
          false, false, false⟩ := by
  unfold newContainer at h
  split at h
  · exact absurd h (by simp)
  · next c hc =>
    split at h
    · next hcw =>
      split at h
      · exact absurd h (by simp)
      · next hdl hhdl =>
        have hws' : ¬(c.container_type = CType.workspace ∧
            (⟨some hdl, some p, [], CType.container, LayoutMode.none,
              false, false, false⟩ : Container).container_type = CType.workspace) := by
          intro hcontra
          exact absurd hcontra.2 (by simp)
        have hv' : c.container_type ≠ CType.view := by
          intro hcontra
          rcases hcw with hc1 | hc1 <;> rw [hc1] at hcontra <;> simp at hcontra
        simp only [addChild_push
          ⟨some hdl, some p, [], CType.container, LayoutMode.none,
            false, false, false⟩
          hc hws' hv'] at h
        injection h with h2
        rw [Prod.mk.injEq] at h2
        exact ⟨c, hdl, hc, hcw, hhdl, h2.1.symm⟩
    · exact absurd h (by simp)

theorem newView_ws_ok {st : St} {p hdl : Nat} {c : Container} {st' : St} {n : Nat}
    (hc : getC st p = some c) (hw : c.container_type = CType.workspace)
    (h : newView st p hdl = some (st', n)) :
    st' = attachSt st p c (viewC p hdl) := by
  unfold newView at h
  split at h
  · exact absurd h (by simp)
  · next c' hc' =>
    have e : c' = c := by
      rw [hc] at hc'
      injection hc' with e2
      exact e2.symm
    subst e
    split at h
    · next hroot => exact absurd hroot (by rw [hw]; simp)
    · next hnroot =>
      simp only [addChild_push (viewC p hdl) hc
        (by rw [hw]; simp [viewC]) (by rw [hw]; simp)] at h
      injection h with h2
      rw [Prod.mk.injEq] at h2
      exact h2.1.symm

theorem removeChild_ok {st : St} {s : Nat} {t : CType} {st' : St} {j : Nat}
    (h : removeChild st s t = some (Except.ok (st', j))) :
    ∃ c k, getC st s = some c ∧ findTypeIdx st c.children t 0 = some (some k) ∧
      t ≠ CType.workspace ∧ c.children[k]? = some j ∧ st' = eraseSt st s c k := by
  unfold removeChild at h
  split at h
  · exact absurd h (by simp)
  · next c hc =>
    split at h
    · exact absurd h (by simp)
    · exfalso
      injection h with h2
      exact Except.noConfusion h2
    · next k hfind =>
      split at h
      · exfalso
        injection h with h2
        exact Except.noConfusion h2
      · next hnw =>
        split at h
        · exact absurd h (by simp)
        · next j' hj' =>
          injection h with h2
          injection h2 with h3
          rw [Prod.mk.injEq] at h3
          obtain ⟨hst, hjj⟩ := h3
          subst hjj
          exact ⟨c, k, hc, hfind, hnw, hj', hst.symm⟩

theorem removeChildAt_ok {st : St} {s idx : Nat} {st' : St} {j : Nat}
    (h : removeChildAt st s idx = some (Except.ok (st', j))) :
    ∃ c, getC st s = some c ∧ c.children[idx]? = some j ∧
      st' = eraseSt st s c idx := by
  unfold removeChildAt at h
  split at h
  · exact absurd h (by simp)
  · next c hc =>
    split at h
    · exact absurd h (by simp)
    · next j' hj' =>
      split at h
      · exact absurd h (by simp)
      · next cj hcj =>
        split at h
        · exfalso
          injection h with h2
          exact Except.noConfusion h2
        · injection h with h2
          injection h2 with h3
          rw [Prod.mk.injEq] at h3
          obtain ⟨hst, hjj⟩ := h3
          subst hjj
          exact ⟨c, hc, hj', hst.symm⟩

theorem removeContainer_ok {st : St} {n : Nat} {st' : St}
    (h : removeContainer st n = some (Except.ok st')) :
    st' = st ∨ ∃ p c k, getC st p = some c ∧ st' = eraseSt st p c k := by
  unfold removeContainer at h
  split at h
  · exact absurd h (by simp)
  · next c hc =>
    split at h
    · exfalso
      injection h with h2
      exact Except.noConfusion h2
    · split at h
      · exfalso
        injection h with h2
        exact Except.noConfusion h2
      · split at h
        · left
          injection h with h2
          injection h2 with h3
          exact h3.symm
        · next p hp =>
          split at h
          · exact absurd h (by simp)
          · next r hr =>
            right
            injection h with h2
            injection h2 with h3
            obtain ⟨rr1, rr2⟩ := r
            obtain ⟨cr, k, hcr, _, _, _, hshape⟩ := removeChild_ok hr
            exact ⟨p, cr, k, hcr, h3 ▸ hshape⟩
          · left
            injection h with h2
            injection h2 with h3
            exact h3.symm

/-- Every operation that runs without abort or error under the
workspace-parent restriction on new_view preserves the invariant. -/
theorem runOpR_preserves {st : St} {op : Op} {st' : St} (inv : Inv st)
    (h : runOpR st op = some st') : Inv st' := by
  cases op with
  | newOutput p hdl =>
    simp only [runOpR, runOp] at h
    obtain ⟨⟨st2, n⟩, hno, hmap⟩ := Option.map_eq_some'.mp h
    obtain ⟨c, hc, hroot, hst2⟩ := newOutput_ok hno
    have hst' : st' = st2 := by
      simpa using hmap.symm
    subst hst'
    rw [hst2]
    exact inv.attach hc (by rw [hroot]; rfl) rfl rfl
  | newWorkspace p =>
    simp only [runOpR, runOp] at h
    obtain ⟨⟨st2, n⟩, hno, hmap⟩ := Option.map_eq_some'.mp h
    obtain ⟨c, hdl, hc, hout, hhdl, hst2⟩ := newWorkspace_ok hno
    have hst' : st' = st2 := by
      simpa using hmap.symm
    subst hst'
    rw [hst2]
    exact inv.attach hc (by rw [hout]; rfl) rfl rfl
  | newContainer p =>
    simp only [runOpR, runOp] at h
    obtain ⟨⟨st2, n⟩, hno, hmap⟩ := Option.map_eq_some'.mp h
    obtain ⟨c, hdl, hc, hcw, hhdl, hst2⟩ := newContainer_ok hno
    have hst' : st' = st2 := by
      simpa using hmap.symm
    subst hst'
    rw [hst2]
    rcases hcw with hc1 | hc1 <;> exact inv.attach hc (by rw [hc1]; rfl) rfl rfl
  | newView p hdl =>
    simp only [runOpR] at h
    split at h
    · next c hc =>
      split at h
      · next hw =>
        obtain ⟨⟨st2, n⟩, hno, hmap⟩ := Option.map_eq_some'.mp h
        have hst2 := newView_ws_ok hc hw hno
        have hst' : st' = st2 := by
          simpa using hmap.symm
        subst hst'
        rw [hst2]
        exact inv.attach hc (by rw [hw]; rfl) rfl rfl
      · exact absurd h (by simp)
    · exact absurd h (by simp)
  | removeContainer n =>
    simp only [runOpR, runOp] at h
    split at h
    · next st2 heq =>
      injection h with h2
      subst h2
      rcases removeContainer_ok heq with rfl | ⟨p, c, k, hc, hshape⟩
      · exact inv
      · rw [hshape]
        exact inv.erase hc
    · exact absurd h (by simp)
  | removeChildAt n idx =>
    simp only [runOpR, runOp] at h
    split at h
    · next r heq =>
      injection h with h2
      obtain ⟨r1, r2⟩ := r
      obtain ⟨c, hc, hk, hshape⟩ := removeChildAt_ok heq
      rw [← h2, hshape]
      exact inv.erase hc
    · exact absurd h (by simp)
  | removeChild n t =>
    simp only [runOpR, runOp] at h
    split at h
    · next r heq =>
      injection h with h2
      obtain ⟨r1, r2⟩ := r
      obtain ⟨c, k, hc, hfind, hnw, hk, hshape⟩ := removeChild_ok heq
      rw [← h2, hshape]
      exact inv.erase hc
    · exact absurd h (by simp)

/-- Running any restricted sequence from an invariant state lands in an
invariant state. -/
theorem runOpsR_preserves :
    ∀ (ops : List Op) (st0 st : St), Inv st0 → runOpsR st0 ops = some st → Inv st := by
  intro ops
  induction ops with
  | nil =>
    intro st0 st hinv hrun
    rw [runOpsR] at hrun
    injection hrun with e
    exact e ▸ hinv
  | cons op rest ih =>
    intro st0 st hinv hrun
    rw [runOpsR] at hrun
    cases hop : runOpR st0 op with
    | none => rw [hop] at hrun; exact absurd hrun (by simp)
    | some st1 =>
      rw [hop] at hrun
      exact ih st1 st (runOpR_preserves hinv hop) hrun

/-- The claim-level tree invariant follows from the strong one. -/
theorem TreeInv_of_Inv {st : St} (inv : Inv st) : TreeInv st := by
  intro n hreach
  constructor
  · intro c hn j hj
    obtain ⟨_, cj, hcj, hleg, _⟩ := inv.edges n c hn j hj
    exact ⟨cj, hcj, hleg⟩
  · intro hne c hn
    rcases Relation.ReflTransGen.cases_tail hreach with heq | ⟨m, _, hedge⟩
    · exact absurd heq hne
    · obtain ⟨cm, hcm, hmem⟩ := hedge
      obtain ⟨_, cj, hcj, _, hparj⟩ := inv.edges m cm hcm n hmem
      have e : c = cj := by
        rw [hn] at hcj
        injection hcj
      refine ⟨m, e ▸ hparj, cm, hcm, ?_⟩
      have hge : 1 ≤ cm.children.count n := List.one_le_count_iff.mpr hmem
      have hle : cm.children.count n ≤ occCount st n := occ_single_le hcm n
      have := inv.uniq n
      omega

/-- Claim C1 as amended: any sequence of the typed constructors and the
removal operations that starts from the fresh root state, never aborts
or errors, and only ever calls new_view on Workspace parents, keeps
every reachable parent/child pairing legally typed and every reachable
non-root back-reference resolving to a live parent owning the node
exactly once. -/
theorem C1_invariants_amended :
    ∀ (ops : List Op) (st : St), runOpsR newRoot ops = some st → TreeInv st := by
  intro ops st hrun
  exact TreeInv_of_Inv (runOpsR_preserves ops newRoot st Inv_newRoot hrun)

/-- Claim C1, witness: the root, output, workspace, view run under the
restricted regime reaches stVW, which satisfies the tree invariant. -/
theorem C1_witness : TreeInv stVW :=
  C1_invariants_amended
    [Op.newOutput 0 10, Op.newWorkspace 1, Op.newView 2 77] stVW (by decide)

/-- Claim C3 as amended: remove_container errors on Root and Workspace
nodes; on any other node whose parent resolves, it removes the first
child of the parent whose container type matches the node (type-based
equality), and when that first match is the node itself, the node
leaves the parent children sequence and neither it nor any of its
descendants stays reachable from the root. -/
theorem C3_remove_container_amended :
    ∀ (st : St) (n : Nat) (c : Container),
      invB st = true → getC st n = some c →
      ((c.container_type = CType.root ∨ c.container_type = CType.workspace) →
        ∃ e, removeContainer st n = some (Except.error e)) ∧
      (c.container_type ≠ CType.root → c.container_type ≠ CType.workspace →
        ∀ (p : Nat) (cp : Container) (k : Nat),
          getParent st n = some p → getC st p = some cp →
          findTypeIdx st cp.children c.container_type 0 = some (some k) →
          cp.children[k]? = some n →
          removeContainer st n = some (Except.ok (eraseSt st p cp k)) ∧
          ∀ x, Reach st n x → ¬ Reach (eraseSt st p cp k) 0 x) := by
  intro st n c hB hn
  have inv := Inv_of_invB hB
  constructor
  · intro hrw
    rcases hrw with hr | hw
    · exact ⟨"Cannot remove root container", by simp [removeContainer, hn, hr]⟩
    · by_cases hr : c.container_type = CType.root
      · exact ⟨"Cannot remove root container", by simp [removeContainer, hn, hr]⟩
      · exact ⟨"Cannot remove workspace container", by simp [removeContainer, hn, hr, hw]⟩
  · intro hroot hws p cp k hgp hcp hfind hk
    have hrc : removeChild st p c.container_type =
        some (Except.ok (eraseSt st p cp k, n)) := by
      simp only [removeChild, hcp, hfind, if_neg hws, hk]
      rfl
    have hmain : removeContainer st n = some (Except.ok (eraseSt st p cp k)) := by
      simp only [removeContainer, hn, if_neg hroot, if_neg hws, hgp, hrc]
    refine ⟨hmain, ?_⟩
    have hn0 : n ≠ 0 := by
      intro he
      subst he
      obtain ⟨c0, hg0, ht0, _⟩ := inv.root0
      rw [hn] at hg0
      injection hg0 with e
      exact hroot (e ▸ ht0)
    have hmemk : n ∈ cp.children := List.getElem?_mem hk
    have hA : ∀ z cz, getC (eraseSt st p cp k) z = some cz → n ∉ cz.children := by
      intro z cz hz hmem
      by_cases hzp : z = p
      · subst hzp
        rw [getC_erase_self hcp] at hz
        injection hz with e
        have hc0 : (cp.children.eraseIdx k).count n = 0 := by
          have h1 := count_eraseIdx_self cp.children k n hk
          have h2 : cp.children.count n ≤ occCount st n := occ_single_le hcp n
          have h3 := inv.uniq n
          omega
        rw [← e] at hmem
        simp only at hmem
        exact absurd hmem (List.count_eq_zero.mp hc0)
      · rw [getC_erase_other hzp] at hz
        have h2 := occ_two_le hz hcp hzp hmem hmemk
        have := inv.uniq n
        omega
    have hrev : ∀ x, Reach (eraseSt st p cp k) 0 x → ¬ Reach st n x := by
      intro x hx
      induction hx with
      | refl =>
        intro hr0
        rcases Relation.ReflTransGen.cases_tail hr0 with heq | ⟨m, _, hedge⟩
        · exact hn0 heq.symm
        · obtain ⟨cm, hcm, hmem⟩ := hedge
          obtain ⟨hlt, _⟩ := inv.edges m cm hcm 0 hmem
          exact absurd hlt (Nat.not_lt_zero m)
      | tail hab hbc ih =>
        next b x' =>
        intro hrx
        obtain ⟨cb', hcb', hmemb⟩ := hbc
        have hedge_st : ∃ cb, getC st b = some cb ∧ x' ∈ cb.children := by
          by_cases hbp : b = p
          · subst hbp
            rw [getC_erase_self hcp] at hcb'
            injection hcb' with e
            rw [← e] at hmemb
            simp only at hmemb
            exact ⟨cp, hcp, (List.eraseIdx_sublist cp.children k).mem hmemb⟩
          · rw [getC_erase_other hbp] at hcb'
            exact ⟨cb', hcb', hmemb⟩
        obtain ⟨cb, hcb, hmem_st⟩ := hedge_st
        rcases Relation.ReflTransGen.cases_tail hrx with heq | ⟨m, hrm, hedge⟩
        · exact hA b cb' hcb' (heq ▸ hmemb)
        · obtain ⟨cm, hcm, hmemm⟩ := hedge
          by_cases hbm : b = m
          · subst hbm
            exact ih hrm
          · have h2 := occ_two_le hcb hcm hbm hmem_st hmemm
            have := inv.uniq x'
            omega
    exact fun x hx hx' => hrev x hx' hx

/-- Claim C3, witness: in stDup the first type-matching child of the
workspace for index 3 is index 3 itself, so remove_container removes
exactly it, and it is no longer reachable from the root. -/
theorem C3_witness :
    removeContainer stDup 3 =
      some (Except.ok (eraseSt stDup 2
        ⟨some (Handle.output 10), some 1, [3, 4], CType.workspace, LayoutMode.none,
          false, false, false⟩ 0)) ∧
    ¬ Reach (eraseSt stDup 2
        ⟨some (Handle.output 10), some 1, [3, 4], CType.workspace, LayoutMode.none,
          false, false, false⟩ 0) 0 3 := by
  have T := (C3_remove_container_amended stDup 3
      ⟨some (Handle.output 10), some 2, [], CType.container, LayoutMode.none,
        false, false, false⟩
      (by decide) rfl).2 (by decide) (by decide) 2
      ⟨some (Handle.output 10), some 1, [3, 4], CType.workspace, LayoutMode.none,
        false, false, false⟩ 0 rfl rfl (by decide) rfl
  exact ⟨T.1, T.2 3 Relation.ReflTransGen.refl⟩

end WayCooler
